import Mathlib

/-!
Shallow embedding of the core of `getResonanceShapes.py` from the
DijetShapeInterpolator repository: shape-set validation (`ShapeStorage`),
mass interpolation/extrapolation, bin integration with domain clamping,
normalization (`LineShapePDF`), and the fine-grained PDF/CDF construction
from `main`.  Real numbers are modelled by `ℚ`; masses are `ℤ` (the script
coerces dictionary keys with `int(k)`).  The dictionary `shapes` is
modelled as an association list in insertion order; the external ROOT
spline integrator `Math.Interpolator(...).Integ` is an abstract parameter,
since its numerics live outside this repository.
-/

namespace Dijet

/-- A shape set: the `shapes` dict (mass → bin contents) and the shared
`binxcenters` grid, as stored by `ShapeStorage.__init__`. -/
structure ShapeStorage where
  shapes : List (ℤ × List ℚ)
  binxcenters : List ℚ
deriving Repr, DecidableEq

/-- The three fatal validation outcomes of `ShapeStorage.__init__`
(`sys.exit(1)`, `sys.exit(3)` naming the mass, `sys.exit(2)`). -/
inductive ShapeError where
  | insufficientShapes (n : ℕ)
  | unnormalizedShape (mass : ℤ)
  | inconsistentBinning
deriving Repr, DecidableEq

/-- The normalization loop of `ShapeStorage.__init__`: walk the shapes in
dict order and return the first mass whose content sum deviates from 1 by
more than 0.01 (the loop calls `sys.exit(3)` at the first offender). -/
def checkNorms : List (ℤ × List ℚ) → Option ℤ
  | [] => none
  | (k, ys) :: rest => if |ys.sum - 1| > 1/100 then some k else checkNorms rest

/-- `ShapeStorage.__init__`: fewer than 2 shapes aborts first; then the
per-shape normalization check; then the bin-count consistency check
(`len(set(nbins)) > 1` where `nbins` collects `len(binxcenters)` and every
shape length). -/
def mkShapeStorage (shapes : List (ℤ × List ℚ)) (binxcenters : List ℚ) :
    Except ShapeError ShapeStorage :=
  if shapes.length < 2 then
    .error (.insufficientShapes shapes.length)
  else
    match checkNorms shapes with
    | some k => .error (.unnormalizedShape k)
    | none =>
      if shapes.all (fun p => p.2.length = binxcenters.length) then
        .ok ⟨shapes, binxcenters⟩
      else
        .error .inconsistentBinning

/-- Dictionary lookup `shapes.shapes[m]` (Python dicts keep insertion
order; keys are unique). -/
def lookupShape (shapes : List (ℤ × List ℚ)) (m : ℤ) : Option (List ℚ) :=
  (shapes.find? (fun p => p.1 = m)).map Prod.snd

/-- The per-bin linear blend `y = ((yh - yl) / float(mh - ml)) * float(mass - ml) + yl`
of `LineShapePDF`, written with the source's grouping. -/
def blendShape (mass ml mh : ℤ) (yl yh : List ℚ) : List ℚ :=
  List.zipWith
    (fun a b => (b - a) / ((mh : ℚ) - (ml : ℚ)) * ((mass : ℚ) - (ml : ℚ)) + a) yl yh

/-- The last two elements of a list: `input_masses[-2], input_masses[-1]`. -/
def last2 : List ℤ → Option (ℤ × ℤ)
  | [] => none
  | [_] => none
  | [a, b] => some (a, b)
  | _ :: b :: c :: xs => last2 (b :: c :: xs)

/-- Fetch the two shapes at `ml`/`mh` and blend; `warn` records whether an
extrapolation warning was printed. -/
def blendOf (shapes : List (ℤ × List ℚ)) (mass ml mh : ℤ) (warn : Bool) :
    Option (List ℚ × Bool) :=
  (lookupShape shapes ml).bind fun yl =>
    (lookupShape shapes mh).map fun yh => (blendShape mass ml mh yl yh, warn)

/-- The curve-selection part of `LineShapePDF` (lines 79-98): exact shape at a
known mass, otherwise bracketing/extrapolating linear blend over the sorted
mass keys.  The `Bool` is the extrapolation-warning flag; `none` models a
Python runtime error (never reached on validated input). -/
def interpCurve (shapes : List (ℤ × List ℚ)) (mass : ℤ) : Option (List ℚ × Bool) :=
  match lookupShape shapes mass with
  | some ys => some (ys, false)
  | none =>
    match (shapes.map Prod.fst).insertionSort (· ≤ ·) with
    | [] => none
    | [_] => none
    | m0 :: m1 :: rest =>
      if mass < m0 then
        blendOf shapes mass m0 m1 true
      else if (m1 :: rest).getLast (List.cons_ne_nil m1 rest) < mass then
        match last2 (m0 :: m1 :: rest) with
        | some (ml, mh) => blendOf shapes mass ml mh true
        | none => none
      else
        match ((m0 :: m1 :: rest).filter (fun m => m < mass)).max?,
              ((m0 :: m1 :: rest).filter (fun m => mass < m)).min? with
        | some ml, some mh => blendOf shapes mass ml mh false
        | _, _ => none

/-- One target bin of the integration loop of `LineShapePDF` (lines 103-113):
`lo`/`hi` are the bin's native edges, `mass` the target mass, `x0`/`xN` the
first and last `binxcenters`, `Integ` the spline integral.  The bin center in
ratio space must fall strictly inside `(x0, xN)`; the edges are clamped to the
grid and a negative integral is floored to 0. -/
def binContent (x0 xN : ℚ) (Integ : ℚ → ℚ → ℚ) (mass : ℚ) (lo hi : ℚ) : ℚ :=
  let xcenter := ((lo + hi) / 2) / mass
  if x0 < xcenter ∧ xcenter < xN then
    let xlow := if lo / mass < x0 then x0 else lo / mass
    let xhigh := if xN < hi / mass then xN else hi / mass
    let integral := Integ xlow xhigh
    if 0 ≤ integral then integral else 0
  else 0

/-- The whole integration loop: one content per consecutive pair of target
bin edges. -/
def integrateBins (x0 xN : ℚ) (Integ : ℚ → ℚ → ℚ) (mass : ℚ) (edges : List ℚ) :
    List ℚ :=
  List.zipWith (binContent x0 xN Integ mass) edges edges.tail

/-- Lines 114-116 of `LineShapePDF`: `histo.Scale(1./integral)` when the
total is positive, otherwise the histogram is left untouched. -/
def normalize (cs : List ℚ) : List ℚ :=
  let integral := cs.sum
  if 0 < integral then cs.map (fun c => c * (1 / integral)) else cs

/-- All of `LineShapePDF`: pick/blend the curve, integrate it over the target
bins, normalize.  `IntegOf x y a b` abstracts
`Math.Interpolator` built on knots `x` with values `y`, integrated over
`[a, b]`. -/
def lineShapePDF (IntegOf : List ℚ → List ℚ → ℚ → ℚ → ℚ) (st : ShapeStorage)
    (mass : ℤ) (edges : List ℚ) : Option (List ℚ × Bool) :=
  match interpCurve st.shapes mass with
  | none => none
  | some (y, warn) =>
    match st.binxcenters with
    | [] => none
    | x0 :: xs =>
      some (normalize (integrateBins x0 ((x0 :: xs).getLast (List.cons_ne_nil x0 xs))
        (IntegOf st.binxcenters y) (mass : ℚ) edges), warn)

/-- `TAxis::FindBin` of a `TH1D(_, _, nbins, 0, nbins)` (unit-width fine
grid): underflow is bin 0, overflow bin `nbins+1`, otherwise `⌊x⌋ + 1`. -/
def findBin (nbins : ℕ) (x : ℚ) : ℤ :=
  if x < 0 then 0
  else if (nbins : ℚ) ≤ x then (nbins : ℤ) + 1
  else ⌊x⌋ + 1

/-- `for b in range(lo, hi+1): SetBinContent(b, v)` on a histogram viewed as
a content function over bin indices. -/
def setRange (f : ℤ → ℚ) (lo hi : ℤ) (v : ℚ) : ℤ → ℚ :=
  fun b => if lo ≤ b ∧ b ≤ hi then v else f b

/-- Coarse bins `(content, lowEdge, upEdge)` from a content list and an edge
list, as read off `h_shape` bin by bin. -/
def coarseBins (contents : List ℚ) (edges : List ℚ) : List (ℚ × ℚ × ℚ) :=
  List.zipWith (fun c e => (c, e)) contents (edges.zip edges.tail)

/-- One iteration of the PDF loop of `main` (lines 251-256): locate the fine
bins at the coarse bin's inset edges, compute the spread width, and write
`content / width` over the whole fine range. -/
def pdfStep (nfine : ℕ) (f : ℤ → ℚ) (bin : ℚ × ℚ × ℚ) : ℤ → ℚ :=
  let bmin := findBin nfine (bin.2.1 + 1/2)
  let bmax := findBin nfine (bin.2.2 - 1/2)
  let width : ℤ := max 1 (bmax - bmin + 1)
  setRange f bmin bmax (bin.1 / (width : ℚ))

/-- The PDF loop of `main` (lines 250-256): each coarse bin spreads its
content uniformly over the fine bins found from its inset edges; all fine
bins start at 0. -/
def makePDF (nfine : ℕ) (bins : List (ℚ × ℚ × ℚ)) : ℤ → ℚ :=
  bins.foldl (pdfStep nfine) (fun _ => 0)

/-- `curr = sum of f b for b in range(lo, hi+1)`. -/
def sumRange (f : ℤ → ℚ) (lo hi : ℤ) : ℚ :=
  ((List.range (hi + 1 - lo).toNat).map (fun (k : ℕ) => f (lo + (k : ℤ)))).sum

/-- The CDF loop of `main` (lines 259-266): `makeCDF nfine pdf i` is
`h_cdf.GetBinContent(i)` after the loop; index 0 is the (never written)
underflow bin.  Fine cdf bin `i+1` has native edges `[i, i+1]`. -/
def makeCDF (nfine : ℕ) (pdf : ℤ → ℚ) : ℕ → ℚ
  | 0 => 0
  | i + 1 =>
    let bmin := findBin nfine ((i : ℚ) + 1/2)
    let bmax := findBin nfine (((i : ℚ) + 1) - 1/2)
    makeCDF nfine pdf i + sumRange pdf bmin bmax

/-! ### Helper lemmas -/

theorem checkNorms_eq_none_iff (l : List (ℤ × List ℚ)) :
    checkNorms l = none ↔ ∀ p ∈ l, ¬ (1/100 < |p.2.sum - 1|) := by
  induction l with
  | nil => simp [checkNorms]
  | cons p rest ih =>
    rw [checkNorms]
    split_ifs with h
    · simp only [false_iff, not_forall]
      exact ⟨p, List.mem_cons_self p rest, not_not.mpr h⟩
    · simp only [ih, List.mem_cons]
      constructor
      · rintro hall q (rfl | hq)
        · exact h
        · exact hall q hq
      · intro hall q hq
        exact hall q (Or.inr hq)

theorem checkNorms_eq_some (l : List (ℤ × List ℚ)) (k : ℤ) :
    checkNorms l = some k → ∃ ys, (k, ys) ∈ l ∧ 1/100 < |ys.sum - 1| := by
  induction l with
  | nil => simp [checkNorms]
  | cons p rest ih =>
    rw [checkNorms]
    split_ifs with h
    · intro hk
      obtain rfl : p.1 = k := by simpa using hk
      exact ⟨p.2, List.mem_cons_self p rest, h⟩
    · intro hk
      obtain ⟨ys, hmem, hys⟩ := ih hk
      exact ⟨ys, List.mem_cons_of_mem p hmem, hys⟩

theorem lookupShape_eq_none_iff (shapes : List (ℤ × List ℚ)) (m : ℤ) :
    lookupShape shapes m = none ↔ m ∉ shapes.map Prod.fst := by
  simp only [lookupShape, Option.map_eq_none', List.find?_eq_none, List.mem_map]
  constructor
  · rintro h ⟨p, hp, rfl⟩
    exact (by simpa using h p hp)
  · intro h p hp
    simp only [decide_eq_true_eq]
    exact fun hpm => h ⟨p, hp, hpm⟩

theorem lookupShape_isSome (shapes : List (ℤ × List ℚ)) (m : ℤ)
    (h : m ∈ shapes.map Prod.fst) : ∃ ys, lookupShape shapes m = some ys := by
  cases hl : lookupShape shapes m with
  | none => exact absurd ((lookupShape_eq_none_iff shapes m).mp hl) (not_not.mpr h)
  | some ys => exact ⟨ys, rfl⟩

theorem sum_map_mul_const (l : List ℚ) (r : ℚ) :
    (l.map (fun c => c * r)).sum = l.sum * r := by
  induction l with
  | nil => simp
  | cons c cs ih => simp [ih, add_mul]

theorem normalize_eq (cs : List ℚ) :
    normalize cs = if 0 < cs.sum then cs.map (fun c => c * (1 / cs.sum)) else cs := rfl

theorem normalize_sum_eq_one (cs : List ℚ) (h : 0 < cs.sum) :
    (normalize cs).sum = 1 := by
  rw [normalize_eq, if_pos h, sum_map_mul_const, mul_one_div, div_self (ne_of_gt h)]

theorem normalize_of_nonpos (cs : List ℚ) (h : cs.sum ≤ 0) : normalize cs = cs := by
  rw [normalize_eq, if_neg (not_lt.mpr h)]

theorem forall_mem_zipWith {α β γ : Type} (f : α → β → γ) (P : γ → Prop)
    (h : ∀ a b, P (f a b)) :
    ∀ (l1 : List α) (l2 : List β), ∀ c ∈ List.zipWith f l1 l2, P c := by
  intro l1
  induction l1 with
  | nil => intro l2 c hc; simp at hc
  | cons a l1 ih =>
    intro l2 c hc
    cases l2 with
    | nil => simp at hc
    | cons b l2 =>
      rw [List.zipWith_cons_cons] at hc
      rcases List.mem_cons.mp hc with rfl | hc
      · exact h a b
      · exact ih l2 c hc

theorem binContent_nonneg_aux (x0 xN : ℚ) (Integ : ℚ → ℚ → ℚ) (mass lo hi : ℚ) :
    0 ≤ binContent x0 xN Integ mass lo hi := by
  rw [binContent]
  dsimp only
  split_ifs <;> first | assumption | exact le_refl (0 : ℚ)

theorem integrateBins_nonneg_aux (x0 xN : ℚ) (Integ : ℚ → ℚ → ℚ) (mass : ℚ)
    (edges : List ℚ) : ∀ c ∈ integrateBins x0 xN Integ mass edges, 0 ≤ c :=
  forall_mem_zipWith _ _ (fun lo hi => binContent_nonneg_aux x0 xN Integ mass lo hi)
    edges edges.tail

theorem all_zero_of_nonneg_sum_nonpos (l : List ℚ) (h : ∀ c ∈ l, 0 ≤ c)
    (hs : l.sum ≤ 0) : ∀ c ∈ l, c = 0 := by
  induction l with
  | nil => simp
  | cons a l ih =>
    have ha : 0 ≤ a := h a (List.mem_cons_self a l)
    have hl : 0 ≤ l.sum :=
      List.sum_nonneg (fun c hc => h c (List.mem_cons_of_mem a hc))
    rw [List.sum_cons] at hs
    intro c hc
    rcases List.mem_cons.mp hc with rfl | hc
    · linarith
    · exact ih (fun d hd => h d (List.mem_cons_of_mem a hd)) (by linarith) c hc

theorem sorted_head_le (a : ℤ) (l : List ℤ) (h : (a :: l).Sorted (· ≤ ·)) :
    ∀ x ∈ a :: l, a ≤ x := by
  intro x hx
  rcases List.mem_cons.mp hx with rfl | hx
  · exact le_refl x
  · exact List.rel_of_sorted_cons h x hx

theorem sorted_le_getLast (l : List ℤ) (h : l.Sorted (· ≤ ·)) (hne : l ≠ []) :
    ∀ x ∈ l, x ≤ l.getLast hne := by
  induction l with
  | nil => exact absurd rfl hne
  | cons a l ih =>
    intro x hx
    cases l with
    | nil =>
      rcases List.mem_cons.mp hx with rfl | hx
      · simp [List.getLast]
      · simp at hx
    | cons b l =>
      rw [List.getLast_cons (List.cons_ne_nil b l)]
      rcases List.mem_cons.mp hx with rfl | hx
      · exact List.rel_of_sorted_cons h _ (List.getLast_mem (List.cons_ne_nil b l))
      · exact ih (List.sorted_cons.mp h).2 (List.cons_ne_nil b l) x hx

theorem max?_eq_some_of_mem_of_le (l : List ℤ) (a : ℤ) (ha : a ∈ l)
    (hmax : ∀ b ∈ l, b ≤ a) : l.max? = some a := by
  haveI : Std.Antisymm ((· : ℤ) ≤ ·) := ⟨fun h h' => le_antisymm h h'⟩
  exact (List.max?_eq_some_iff (fun x => le_refl x) (fun x y => max_choice x y)
    (fun x y z => max_le_iff)).mpr ⟨ha, hmax⟩

theorem min?_eq_some_of_mem_of_le (l : List ℤ) (a : ℤ) (ha : a ∈ l)
    (hmin : ∀ b ∈ l, a ≤ b) : l.min? = some a := by
  haveI : Std.Antisymm ((· : ℤ) ≤ ·) := ⟨fun h h' => le_antisymm h h'⟩
  exact (List.min?_eq_some_iff (fun x => le_refl x) (fun x y => min_choice x y)
    (fun x y z => le_min_iff)).mpr ⟨ha, hmin⟩

theorem zipWith_fun_congr {α β γ : Type} (f g : α → β → γ)
    (h : ∀ a b, f a b = g a b) :
    ∀ (l1 : List α) (l2 : List β), List.zipWith f l1 l2 = List.zipWith g l1 l2 := by
  intro l1
  induction l1 with
  | nil => intro l2; simp
  | cons a l1 ih =>
    intro l2
    cases l2 with
    | nil => simp
    | cons b l2 => rw [List.zipWith_cons_cons, List.zipWith_cons_cons, h, ih]

theorem last2_spec : ∀ (l : List ℤ), 2 ≤ l.length →
    ∃ l' a b, l = l' ++ [a, b] ∧ last2 l = some (a, b)
  | [], h => by simp at h
  | [_], h => by simp at h
  | [a, b], _ => ⟨[], a, b, rfl, rfl⟩
  | x :: y :: z :: xs, _ => by
    obtain ⟨l', a, b, heq, hl⟩ := last2_spec (y :: z :: xs) (by simp)
    refine ⟨x :: l', a, b, ?_, ?_⟩
    · rw [List.cons_append, ← heq]
    · rw [last2, hl]

theorem normalize_dichotomy (cs : List ℚ) (hnn : ∀ c ∈ cs, 0 ≤ c) :
    (normalize cs).sum = 1 ∨ ∀ c ∈ normalize cs, c = 0 := by
  rcases lt_or_le 0 cs.sum with hpos | hnp
  · exact Or.inl (normalize_sum_eq_one cs hpos)
  · rw [normalize_of_nonpos cs hnp]
    exact Or.inr (all_zero_of_nonneg_sum_nonpos cs hnn hnp)

/-! ### Claim theorems -/

/-- C2: ShapeSet construction fails with the insufficient-shapes error when
fewer than 2 masses are supplied; fails with the unnormalized-shape error
naming the offending mass when some shape's content sum deviates from 1 by
more than 0.01 in absolute value; fails with the inconsistent-binning error
when some shape's length or the XGrid's length disagrees with the others;
and succeeds otherwise. -/
theorem mkShapeStorage_validation (shapes : List (ℤ × List ℚ)) (bxc : List ℚ) :
    (shapes.length < 2 →
      mkShapeStorage shapes bxc = .error (.insufficientShapes shapes.length)) ∧
    (2 ≤ shapes.length → (∃ p ∈ shapes, 1/100 < |p.2.sum - 1|) →
      ∃ k ys, (k, ys) ∈ shapes ∧ 1/100 < |ys.sum - 1| ∧
        mkShapeStorage shapes bxc = .error (.unnormalizedShape k)) ∧
    (2 ≤ shapes.length → (∀ p ∈ shapes, ¬ (1/100 < |p.2.sum - 1|)) →
      ¬ (∀ p ∈ shapes, p.2.length = bxc.length) →
      mkShapeStorage shapes bxc = .error .inconsistentBinning) ∧
    (2 ≤ shapes.length → (∀ p ∈ shapes, ¬ (1/100 < |p.2.sum - 1|)) →
      (∀ p ∈ shapes, p.2.length = bxc.length) →
      mkShapeStorage shapes bxc = .ok ⟨shapes, bxc⟩) := by
  refine ⟨fun hlen => ?_, fun hlen hbad => ?_, fun hlen hnorm hbin => ?_,
    fun hlen hnorm hbin => ?_⟩
  · rw [mkShapeStorage, if_pos hlen]
  · have hnn : ¬ checkNorms shapes = none := by
      rw [checkNorms_eq_none_iff]
      push_neg
      obtain ⟨p, hp, hpb⟩ := hbad
      exact ⟨p, hp, hpb⟩
    cases hc : checkNorms shapes with
    | none => exact absurd hc hnn
    | some k =>
      obtain ⟨ys, hmem, hys⟩ := checkNorms_eq_some shapes k hc
      refine ⟨k, ys, hmem, hys, ?_⟩
      rw [mkShapeStorage, if_neg (by omega), hc]
  · rw [mkShapeStorage, if_neg (by omega), (checkNorms_eq_none_iff shapes).mpr hnorm,
      if_neg (by simpa using hbin)]
  · rw [mkShapeStorage, if_neg (by omega), (checkNorms_eq_none_iff shapes).mpr hnorm,
      if_pos (by simpa using hbin)]

/-- C2 witness: a two-shape, consistent, normalized input is accepted. -/
theorem mkShapeStorage_validation_witness :
    mkShapeStorage [(1000, [2/10, 3/10, 5/10]), (2000, [5/10, 3/10, 2/10])]
        [1/10, 5/10, 9/10] =
      .ok ⟨[(1000, [2/10, 3/10, 5/10]), (2000, [5/10, 3/10, 2/10])],
        [1/10, 5/10, 9/10]⟩ :=
  (mkShapeStorage_validation
      [(1000, [2/10, 3/10, 5/10]), (2000, [5/10, 3/10, 2/10])]
      [1/10, 5/10, 9/10]).2.2.2 (by decide)
    (by norm_num [List.forall_mem_cons, List.sum_cons, List.sum_nil]) (by decide)

/-- C7: for a target mass exactly equal to a known input mass, the selected
curve is that shape's stored content sequence, unchanged, with no
extrapolation warning. -/
theorem interpCurve_exact_at_knot (shapes : List (ℤ × List ℚ)) (mass : ℤ)
    (ys : List ℚ) (h : lookupShape shapes mass = some ys) :
    interpCurve shapes mass = some (ys, false) := by
  rw [interpCurve, h]

/-- C7 witness: at the known mass 1000 the stored shape comes back verbatim. -/
theorem interpCurve_exact_at_knot_witness :
    interpCurve [(1000, [2/10, 3/10, 5/10]), (2000, [5/10, 3/10, 2/10])] 1000 =
      some ([2/10, 3/10, 5/10], false) :=
  interpCurve_exact_at_knot
    [(1000, [2/10, 3/10, 5/10]), (2000, [5/10, 3/10, 2/10])] 1000
    [2/10, 3/10, 5/10] rfl

/-- C5: if the histogram total `T` is positive, every bin is rescaled by
`1/T` and the new sum is 1; if `T ≤ 0` no bin is modified; in particular an
already-normalized histogram (`T = 1`) is left unchanged. -/
theorem normalize_contract (cs : List ℚ) :
    (0 < cs.sum →
      (normalize cs).sum = 1 ∧ normalize cs = cs.map (fun c => c * (1 / cs.sum))) ∧
    (cs.sum ≤ 0 → normalize cs = cs) ∧
    (cs.sum = 1 → normalize cs = cs) := by
  refine ⟨fun hpos => ⟨normalize_sum_eq_one cs hpos, ?_⟩,
    fun hnp => normalize_of_nonpos cs hnp, fun hone => ?_⟩
  · rw [normalize_eq, if_pos hpos]
  · rw [normalize_eq, hone, if_pos one_pos]
    simp

/-- C5 witness: normalizing a histogram that already sums to 1 changes
nothing. -/
theorem normalize_contract_witness :
    normalize [1/4, 3/4] = [1/4, 3/4] :=
  (normalize_contract [1/4, 3/4]).2.2 (by norm_num)

/-- C4: every bin produced by the integration loop of `LineShapePDF` is
nonnegative, for every grid, integrator, target mass and target binning:
a bin is either set to 0 or to an integral floored at 0. -/
theorem integrateBins_nonneg (x0 xN : ℚ) (Integ : ℚ → ℚ → ℚ) (mass : ℚ)
    (edges : List ℚ) : ∀ c ∈ integrateBins x0 xN Integ mass edges, 0 ≤ c :=
  integrateBins_nonneg_aux x0 xN Integ mass edges

/-- C4 witness: the first bin of a concrete integration (an in-domain bin
whose abstract integral is the window length) is nonnegative. -/
theorem integrateBins_nonneg_witness :
    0 ≤ binContent (1/10) (9/10) (fun a b => b - a) 1000 50 250 :=
  integrateBins_nonneg (1/10) (9/10) (fun a b => b - a) 1000 [50, 250, 600, 2000]
    (binContent (1/10) (9/10) (fun a b => b - a) 1000 50 250)
    (by simp [integrateBins])

/-- C3: the `i`-th output bin of the integration loop is `binContent` of the
`i`-th pair of target edges; a bin whose center ratio falls outside the open
interval `(x0, xN)` is set to exactly 0; an in-domain bin integrates over the
window clamped to `[x0, xN]`, floored at 0; in particular a bin whose whole
ratio window lies outside `[x0, xN]` has content exactly 0. -/
theorem binContent_domain_clamp (x0 xN : ℚ) (Integ : ℚ → ℚ → ℚ) (mass : ℚ)
    (edges : List ℚ) (i : ℕ) (hi : i + 1 < edges.length) (hm : 0 < mass) :
    (integrateBins x0 xN Integ mass edges)[i]? =
      some (binContent x0 xN Integ mass edges[i] edges[i + 1]) ∧
    (¬ (x0 < ((edges[i] + edges[i + 1]) / 2) / mass ∧
        ((edges[i] + edges[i + 1]) / 2) / mass < xN) →
      binContent x0 xN Integ mass edges[i] edges[i + 1] = 0) ∧
    ((x0 < ((edges[i] + edges[i + 1]) / 2) / mass ∧
        ((edges[i] + edges[i + 1]) / 2) / mass < xN) →
      binContent x0 xN Integ mass edges[i] edges[i + 1] =
        max 0 (Integ (max x0 (edges[i] / mass)) (min xN (edges[i + 1] / mass)))) ∧
    (edges[i] ≤ edges[i + 1] →
      (edges[i + 1] / mass ≤ x0 ∨ xN ≤ edges[i] / mass) →
      binContent x0 xN Integ mass edges[i] edges[i + 1] = 0) := by
  have hlen : i < edges.length := by omega
  have htl : i < edges.tail.length := by
    rw [List.length_tail]; omega
  refine ⟨?_, fun hout => ?_, fun hin => ?_, fun hle hwin => ?_⟩
  · rw [integrateBins]
    rw [List.getElem?_eq_getElem (by simp [List.length_zipWith]; omega)]
    rw [List.getElem_zipWith]
    rw [List.getElem_tail]
  · rw [binContent]
    exact if_neg hout
  · rw [binContent]
    dsimp only
    rw [if_pos hin]
    have hmax : (if edges[i] / mass < x0 then x0 else edges[i] / mass) =
        max x0 (edges[i] / mass) := by
      rcases lt_or_le (edges[i] / mass) x0 with h | h
      · rw [if_pos h, max_eq_left (le_of_lt h)]
      · rw [if_neg (not_lt.mpr h), max_eq_right h]
    have hmin : (if xN < edges[i + 1] / mass then xN else edges[i + 1] / mass) =
        min xN (edges[i + 1] / mass) := by
      rcases lt_or_le xN (edges[i + 1] / mass) with h | h
      · rw [if_pos h, min_eq_left (le_of_lt h)]
      · rw [if_neg (not_lt.mpr h), min_eq_right h]
    rw [hmax, hmin]
    rcases le_or_lt 0
        (Integ (max x0 (edges[i] / mass)) (min xN (edges[i + 1] / mass))) with h | h
    · rw [if_pos h, max_eq_right h]
    · rw [if_neg (not_le.mpr h), max_eq_left (le_of_lt h)]
  · rw [binContent]
    refine if_neg ?_
    rintro ⟨hc1, hc2⟩
    have hmono : edges[i] / mass ≤ ((edges[i] + edges[i + 1]) / 2) / mass ∧
        ((edges[i] + edges[i + 1]) / 2) / mass ≤ edges[i + 1] / mass := by
      constructor
      · exact (div_le_div_iff_of_pos_right hm).mpr (by linarith)
      · exact (div_le_div_iff_of_pos_right hm).mpr (by linarith)
    rcases hwin with h | h
    · exact absurd hc1 (not_lt.mpr (le_trans hmono.2 h))
    · exact absurd hc2 (not_lt.mpr (le_trans h hmono.1))

/-- C3 witness: bin `[1000, 2000]` at mass 1000 has its ratio window
`[1, 2]` fully above `xN = 9/10`, so its content is exactly 0. -/
theorem binContent_domain_clamp_witness :
    binContent (1/10) (9/10) (fun a b => b - a) 1000 1000 2000 = 0 :=
  (binContent_domain_clamp (1/10) (9/10) (fun a b => b - a) 1000 [1000, 2000] 0
    (by decide) (by norm_num)).2.2.2 (by norm_num) (Or.inr (by norm_num))

/-- C10: every histogram produced by the full `LineShapePDF` pipeline either
sums exactly to 1 or is identically 0; a nonzero histogram that does not sum
to 1 is never produced. -/
theorem lineShapePDF_dichotomy (IntegOf : List ℚ → List ℚ → ℚ → ℚ → ℚ)
    (st : ShapeStorage) (mass : ℤ) (edges : List ℚ) (out : List ℚ) (warn : Bool)
    (h : lineShapePDF IntegOf st mass edges = some (out, warn)) :
    out.sum = 1 ∨ ∀ c ∈ out, c = 0 := by
  rw [lineShapePDF] at h
  rcases h1 : interpCurve st.shapes mass with _ | ⟨y, warn'⟩
  · rw [h1] at h; exact absurd h (by simp)
  · rw [h1] at h
    rcases h2 : st.binxcenters with _ | ⟨x0, xs⟩
    · rw [h2] at h; exact absurd h (by simp)
    · rw [h2] at h
      simp only [Option.some_inj, Prod.mk.injEq] at h
      obtain ⟨hout, -⟩ := h
      subst hout
      exact normalize_dichotomy _ (integrateBins_nonneg_aux _ _ _ _ _)

/-- C10 witness: an empty target binning yields the all-zero histogram,
which falls in the second arm of the dichotomy. -/
theorem lineShapePDF_dichotomy_witness :
    ([] : List ℚ).sum = 1 ∨ ∀ c ∈ ([] : List ℚ), c = 0 :=
  lineShapePDF_dichotomy (fun _ _ _ _ => 0)
    ⟨[(1000, [2/10, 3/10, 5/10]), (2000, [5/10, 3/10, 2/10])], [1/10, 5/10, 9/10]⟩
    1000 [] [] false rfl

/-- C1: for a target mass that is not a knot and has known masses strictly
below and above it, the curve is the per-bin linear blend of the shapes at
the bracketing masses `ml` (largest known mass strictly below) and `mh`
(smallest known mass strictly above), with no warning, and the blend equals
`y[i] = yl[i] + (yh[i] - yl[i]) * (m - ml)/(mh - ml)` bin for bin. -/
theorem interpCurve_bracket_blend (shapes : List (ℤ × List ℚ)) (mass ml mh : ℤ)
    (yl yh : List ℚ)
    (hnk : mass ∉ shapes.map Prod.fst)
    (hml_mem : ml ∈ shapes.map Prod.fst) (hmh_mem : mh ∈ shapes.map Prod.fst)
    (hml_lt : ml < mass) (hlt_mh : mass < mh)
    (hml_max : ∀ k ∈ shapes.map Prod.fst, k < mass → k ≤ ml)
    (hmh_min : ∀ k ∈ shapes.map Prod.fst, mass < k → mh ≤ k)
    (hyl : lookupShape shapes ml = some yl)
    (hyh : lookupShape shapes mh = some yh) :
    interpCurve shapes mass = some (blendShape mass ml mh yl yh, false) ∧
    blendShape mass ml mh yl yh =
      List.zipWith
        (fun a b => a + (b - a) * (((mass : ℚ) - (ml : ℚ)) / ((mh : ℚ) - (ml : ℚ))))
        yl yh := by
  constructor
  · have hlook : lookupShape shapes mass = none :=
      (lookupShape_eq_none_iff _ _).mpr hnk
    rw [interpCurve, hlook]
    have hsort := List.sorted_insertionSort (· ≤ ·) (shapes.map Prod.fst)
    have hperm := List.perm_insertionSort (· ≤ ·) (shapes.map Prod.fst)
    rcases hcase : (shapes.map Prod.fst).insertionSort (· ≤ ·) with _ | ⟨m0, tl⟩
    · rw [hcase] at hperm
      exact absurd (hperm.mem_iff.mpr hml_mem) (List.not_mem_nil ml)
    rcases tl with _ | ⟨m1, rest⟩
    · rw [hcase] at hperm
      have h1 : ml = m0 := by simpa using hperm.mem_iff.mpr hml_mem
      have h2 : mh = m0 := by simpa using hperm.mem_iff.mpr hmh_mem
      omega
    rw [hcase] at hsort hperm
    have hmem : ∀ x, x ∈ m0 :: m1 :: rest ↔ x ∈ shapes.map Prod.fst :=
      fun x => hperm.mem_iff
    have hm0 : ¬ mass < m0 := by
      have := sorted_head_le m0 (m1 :: rest) hsort ml ((hmem ml).mpr hml_mem)
      omega
    have hlast : ¬ (m1 :: rest).getLast (List.cons_ne_nil m1 rest) < mass := by
      have hin := sorted_le_getLast (m0 :: m1 :: rest) hsort
        (List.cons_ne_nil m0 (m1 :: rest)) mh ((hmem mh).mpr hmh_mem)
      rw [List.getLast_cons (List.cons_ne_nil m1 rest)] at hin
      omega
    dsimp only
    rw [if_neg hm0, if_neg hlast]
    have hmax : ((m0 :: m1 :: rest).filter (fun m => m < mass)).max? = some ml := by
      refine max?_eq_some_of_mem_of_le _ ml ?_ ?_
      · rw [List.mem_filter]
        exact ⟨(hmem ml).mpr hml_mem, by simpa using hml_lt⟩
      · intro b hb
        rw [List.mem_filter] at hb
        exact hml_max b ((hmem b).mp hb.1) (by simpa using hb.2)
    have hmin : ((m0 :: m1 :: rest).filter (fun m => mass < m)).min? = some mh := by
      refine min?_eq_some_of_mem_of_le _ mh ?_ ?_
      · rw [List.mem_filter]
        exact ⟨(hmem mh).mpr hmh_mem, by simpa using hlt_mh⟩
      · intro b hb
        rw [List.mem_filter] at hb
        exact hmh_min b ((hmem b).mp hb.1) (by simpa using hb.2)
    rw [hmax, hmin]
    dsimp only [blendOf]
    rw [hyl, hyh]
    rfl
  · refine zipWith_fun_congr _ _ (fun a b => ?_) yl yh
    ring

/-- C1 witness: the spec scenario — shapes at 1000 and 2000 over a 3-bin
grid, interpolated at 1500, yield `[0.35, 0.3, 0.35]` with no warning. -/
theorem interpCurve_bracket_blend_witness :
    interpCurve [(1000, [2/10, 3/10, 5/10]), (2000, [5/10, 3/10, 2/10])] 1500 =
      some (blendShape 1500 1000 2000 [2/10, 3/10, 5/10] [5/10, 3/10, 2/10],
        false) ∧
    blendShape 1500 1000 2000 [2/10, 3/10, 5/10] [5/10, 3/10, 2/10] =
      [35/100, 3/10, 35/100] := by
  have h := interpCurve_bracket_blend
    [(1000, [2/10, 3/10, 5/10]), (2000, [5/10, 3/10, 2/10])] 1500 1000 2000
    [2/10, 3/10, 5/10] [5/10, 3/10, 2/10]
    (by decide) (by decide) (by decide) (by decide) (by decide)
    (by decide) (by decide) rfl rfl
  refine ⟨h.1, ?_⟩
  rw [h.2]
  norm_num

/-- C6: a target mass below every known mass is blended with the same linear
formula from the two lowest known masses, and a target mass above every known
mass from the two highest; in both cases the warning flag is set and the
computation completes normally (returns a curve rather than failing). -/
theorem interpCurve_extrapolation (shapes : List (ℤ × List ℚ)) (mass : ℤ)
    (hnd : (shapes.map Prod.fst).Nodup) (hlen : 2 ≤ shapes.length) :
    ((∀ k ∈ shapes.map Prod.fst, mass < k) →
      ∀ ml mh yl yh,
        ml ∈ shapes.map Prod.fst → (∀ k ∈ shapes.map Prod.fst, ml ≤ k) →
        mh ∈ shapes.map Prod.fst → mh ≠ ml →
        (∀ k ∈ shapes.map Prod.fst, k ≠ ml → mh ≤ k) →
        lookupShape shapes ml = some yl → lookupShape shapes mh = some yh →
        interpCurve shapes mass = some (blendShape mass ml mh yl yh, true)) ∧
    ((∀ k ∈ shapes.map Prod.fst, k < mass) →
      ∀ ml mh yl yh,
        mh ∈ shapes.map Prod.fst → (∀ k ∈ shapes.map Prod.fst, k ≤ mh) →
        ml ∈ shapes.map Prod.fst → ml ≠ mh →
        (∀ k ∈ shapes.map Prod.fst, k ≠ mh → k ≤ ml) →
        lookupShape shapes ml = some yl → lookupShape shapes mh = some yh →
        interpCurve shapes mass = some (blendShape mass ml mh yl yh, true)) := by
  have hsort := List.sorted_insertionSort (· ≤ ·) (shapes.map Prod.fst)
  have hperm := List.perm_insertionSort (· ≤ ·) (shapes.map Prod.fst)
  have hlen2 : 2 ≤ ((shapes.map Prod.fst).insertionSort (· ≤ ·)).length := by
    rw [hperm.length_eq, List.length_map]
    exact hlen
  constructor
  · intro hbelow ml mh yl yh hml_mem hml_min hmh_mem hne hmh_snd hyl hyh
    have hnk : mass ∉ shapes.map Prod.fst :=
      fun h => absurd (hbelow mass h) (lt_irrefl mass)
    rw [interpCurve, (lookupShape_eq_none_iff _ _).mpr hnk]
    rcases hcase : (shapes.map Prod.fst).insertionSort (· ≤ ·) with _ | ⟨m0, tl⟩
    · rw [hcase] at hlen2; simp at hlen2
    rcases tl with _ | ⟨m1, rest⟩
    · rw [hcase] at hlen2; simp at hlen2
    rw [hcase] at hsort hperm
    have hmem : ∀ x, x ∈ m0 :: m1 :: rest ↔ x ∈ shapes.map Prod.fst :=
      fun x => hperm.mem_iff
    have hndup : (m0 :: m1 :: rest).Nodup := hperm.nodup_iff.mpr hnd
    have hm0 : mass < m0 := hbelow m0 ((hmem m0).mp (List.mem_cons_self m0 _))
    dsimp only
    rw [if_pos hm0]
    have hml : ml = m0 := by
      have h1 : m0 ≤ ml := sorted_head_le m0 (m1 :: rest) hsort ml
        ((hmem ml).mpr hml_mem)
      have h2 : ml ≤ m0 := hml_min m0 ((hmem m0).mp (List.mem_cons_self m0 _))
      omega
    have hm01 : m0 ≠ m1 := by
      intro h
      exact absurd (h ▸ List.mem_cons_self m1 rest) (List.nodup_cons.mp hndup).1
    subst hml
    have hmh : mh = m1 := by
      have h1 : mh ≤ m1 := by
        refine hmh_snd m1 ((hmem m1).mp
          (List.mem_cons_of_mem ml (List.mem_cons_self m1 rest))) ?_
        exact fun h => hm01 h.symm
      have h2 : m1 ≤ mh := by
        have hmh_in : mh ∈ ml :: m1 :: rest := (hmem mh).mpr hmh_mem
        rcases List.mem_cons.mp hmh_in with heq | hmh_tl
        · exact (hne heq).elim
        · exact sorted_head_le m1 rest (List.sorted_cons.mp hsort).2 mh hmh_tl
      omega
    subst hmh
    dsimp only [blendOf]
    rw [hyl, hyh]
    rfl
  · intro habove ml mh yl yh hmh_mem hmh_max hml_mem hne hml_snd hyl hyh
    have hnk : mass ∉ shapes.map Prod.fst :=
      fun h => absurd (habove mass h) (lt_irrefl mass)
    rw [interpCurve, (lookupShape_eq_none_iff _ _).mpr hnk]
    rcases hcase : (shapes.map Prod.fst).insertionSort (· ≤ ·) with _ | ⟨m0, tl⟩
    · rw [hcase] at hlen2; simp at hlen2
    rcases tl with _ | ⟨m1, rest⟩
    · rw [hcase] at hlen2; simp at hlen2
    rw [hcase] at hsort hperm
    have hmem : ∀ x, x ∈ m0 :: m1 :: rest ↔ x ∈ shapes.map Prod.fst :=
      fun x => hperm.mem_iff
    have hndup : (m0 :: m1 :: rest).Nodup := hperm.nodup_iff.mpr hnd
    have hm0 : ¬ mass < m0 := by
      have := habove m0 ((hmem m0).mp (List.mem_cons_self m0 _))
      omega
    have hlast : (m1 :: rest).getLast (List.cons_ne_nil m1 rest) < mass := by
      have hin : (m1 :: rest).getLast (List.cons_ne_nil m1 rest) ∈ m0 :: m1 :: rest :=
        List.mem_cons_of_mem m0 (List.getLast_mem (List.cons_ne_nil m1 rest))
      exact habove _ ((hmem _).mp hin)
    dsimp only
    rw [if_neg hm0, if_pos hlast]
    obtain ⟨l', a, b, heq, hl2⟩ := last2_spec (m0 :: m1 :: rest) (by simp)
    rw [hl2]
    have hsort' : (l' ++ [a, b]).Sorted (· ≤ ·) := heq ▸ hsort
    have hndup' : (l' ++ [a, b]).Nodup := heq ▸ hndup
    have hmem' : ∀ x, x ∈ l' ++ [a, b] ↔ x ∈ shapes.map Prod.fst :=
      fun x => heq ▸ hmem x
    have hpw := List.pairwise_append.mp hsort'
    have hab : a ≤ b :=
      List.rel_of_sorted_cons hpw.2.1 b (List.mem_cons_self b [])
    have hanb : a ≠ b := by
      have h := (List.nodup_append.mp hndup').2.1
      simp at h
      exact h
    have hble : ∀ x ∈ l' ++ [a, b], x ≤ b := by
      intro x hx
      rcases List.mem_append.mp hx with hx | hx
      · exact hpw.2.2 x hx b (List.mem_cons_of_mem a (List.mem_cons_self b []))
      · rcases List.mem_cons.mp hx with rfl | hx
        · exact hab
        · simp at hx
          omega
    have hale : ∀ x ∈ l' ++ [a, b], x ≠ b → x ≤ a := by
      intro x hx hxb
      rcases List.mem_append.mp hx with hx | hx
      · exact hpw.2.2 x hx a (List.mem_cons_self a [b])
      · rcases List.mem_cons.mp hx with rfl | hx
        · exact le_refl x
        · simp at hx
          exact absurd hx hxb
    have hbmh : b = mh := by
      have h1 : b ≤ mh := hmh_max b ((hmem' b).mp
        (List.mem_append.mpr (Or.inr (List.mem_cons_of_mem a (List.mem_cons_self b [])))))
      have h2 : mh ≤ b := hble mh ((hmem' mh).mpr hmh_mem)
      omega
    have haml : a = ml := by
      have h1 : a ≤ ml := hml_snd a ((hmem' a).mp
        (List.mem_append.mpr (Or.inr (List.mem_cons_self a [b])))) (hbmh ▸ hanb)
      have h2 : ml ≤ a := hale ml ((hmem' ml).mpr hml_mem) (hbmh ▸ hne)
      omega
    subst hbmh; subst haml
    dsimp only [blendOf]
    rw [hyl, hyh]
    rfl

/-- C6 witness: the spec scenario — mass 500, below the known range
{1000, 2000}, extrapolates with the 1000/2000 pair and the warning flag set. -/
theorem interpCurve_extrapolation_witness :
    interpCurve [(1000, [2/10, 3/10, 5/10]), (2000, [5/10, 3/10, 2/10])] 500 =
      some (blendShape 500 1000 2000 [2/10, 3/10, 5/10] [5/10, 3/10, 2/10],
        true) :=
  (interpCurve_extrapolation
      [(1000, [2/10, 3/10, 5/10]), (2000, [5/10, 3/10, 2/10])] 500
      (by decide) (by decide)).1 (by decide)
    1000 2000 [2/10, 3/10, 5/10] [5/10, 3/10, 2/10]
    (by decide) (by decide) (by decide) (by decide) (by decide) rfl rfl

end Dijet

namespace Dijet

theorem findBin_int_minus_half (nbins : ℕ) (e : ℤ) (h1 : 1 ≤ e)
    (h2 : e ≤ (nbins : ℤ)) : findBin nbins ((e : ℚ) - 1/2) = e := by
  have he1 : (1 : ℚ) ≤ (e : ℚ) := by exact_mod_cast h1
  have he2 : (e : ℚ) ≤ (nbins : ℚ) := by exact_mod_cast h2
  rw [findBin, if_neg (by linarith), if_neg (by linarith)]
  have hfl : ⌊(e : ℚ) - 1/2⌋ = e - 1 := by
    rw [Int.floor_eq_iff]
    constructor
    · push_cast
      linarith
    · push_cast
      linarith
  rw [hfl]
  ring

theorem findBin_int_plus_half (nbins : ℕ) (e : ℤ) (h1 : 0 ≤ e)
    (h2 : e < (nbins : ℤ)) : findBin nbins ((e : ℚ) + 1/2) = e + 1 := by
  have he1 : (0 : ℚ) ≤ (e : ℚ) := by exact_mod_cast h1
  have he3 : (e : ℚ) + 1 ≤ (nbins : ℚ) := by exact_mod_cast (by omega : e + 1 ≤ (nbins : ℤ))
  rw [findBin, if_neg (by linarith), if_neg (by linarith)]
  have hfl : ⌊(e : ℚ) + 1/2⌋ = e := by
    rw [Int.floor_eq_iff]
    constructor
    · linarith
    · linarith
  rw [hfl]

theorem foldl_pdfStep_nonneg (nfine : ℕ) :
    ∀ (bins : List (ℚ × ℚ × ℚ)) (f : ℤ → ℚ), (∀ b, 0 ≤ f b) →
      (∀ bin ∈ bins, 0 ≤ bin.1) → ∀ b, 0 ≤ bins.foldl (pdfStep nfine) f b := by
  intro bins
  induction bins with
  | nil => intro f hf _ b; exact hf b
  | cons bin bins ih =>
    intro f hf hc b
    rw [List.foldl_cons]
    refine ih (pdfStep nfine f bin) ?_
      (fun p hp => hc p (List.mem_cons_of_mem bin hp)) b
    intro x
    simp only [pdfStep, setRange]
    split_ifs with h
    · refine div_nonneg (hc bin (List.mem_cons_self bin bins)) ?_
      have h1 : (1 : ℤ) ≤ max 1 (findBin nfine (bin.2.2 - 1/2)
          - findBin nfine (bin.2.1 + 1/2) + 1) := le_max_left 1 _
      exact_mod_cast le_trans zero_le_one h1
    · exact hf x

theorem makePDF_nonneg (nfine : ℕ) (bins : List (ℚ × ℚ × ℚ))
    (h : ∀ bin ∈ bins, 0 ≤ bin.1) : ∀ b, 0 ≤ makePDF nfine bins b :=
  foldl_pdfStep_nonneg nfine bins (fun _ => 0) (fun _ => le_refl 0) h

theorem sumRange_self (f : ℤ → ℚ) (a : ℤ) : sumRange f a a = f a := by
  rw [sumRange]
  have h : (a + 1 - a).toNat = 1 := by omega
  rw [h]
  simp [List.range_succ]

theorem sumRange_nonneg (f : ℤ → ℚ) (hf : ∀ b, 0 ≤ f b) (lo hi : ℤ) :
    0 ≤ sumRange f lo hi := by
  rw [sumRange]
  refine List.sum_nonneg ?_
  intro x hx
  rw [List.mem_map] at hx
  obtain ⟨k, -, rfl⟩ := hx
  exact hf _

theorem sumRange_one_succ (f : ℤ → ℚ) (j : ℕ) :
    sumRange f 1 ((j : ℤ) + 1) = sumRange f 1 (j : ℤ) + f ((j : ℤ) + 1) := by
  rw [sumRange, sumRange]
  have h1 : ((1 : ℤ) + 1 - 1 + (j : ℤ)).toNat = j + 1 := by omega
  have h1' : ((j : ℤ) + 1 + 1 - 1).toNat = j + 1 := by omega
  have h2 : ((j : ℤ) + 1 - 1).toNat = j := by omega
  rw [h1', h2, List.range_succ, List.map_append, List.sum_append]
  have h3 : (1 : ℤ) + (j : ℤ) = (j : ℤ) + 1 := by ring
  simp [h3]

theorem makeCDF_eq_sumRange (nfine : ℕ) (pdf : ℤ → ℚ) :
    ∀ j : ℕ, j ≤ nfine → makeCDF nfine pdf j = sumRange pdf 1 (j : ℤ) := by
  intro j
  induction j with
  | zero =>
    intro _
    rw [makeCDF, sumRange]
    norm_num
  | succ i ih =>
    intro hj
    rw [makeCDF]
    have harg : ((i : ℚ) + 1) - 1/2 = (i : ℚ) + 1/2 := by ring
    have hfb : findBin nfine ((i : ℚ) + 1/2) = (i : ℤ) + 1 := by
      have h := findBin_int_plus_half nfine (i : ℤ) (by omega)
        (by exact_mod_cast (by omega : i < nfine))
      rwa [show (((i : ℤ) : ℚ)) = ((i : ℕ) : ℚ) by push_cast; ring] at h
    rw [harg, hfb, sumRange_self, ih (by omega)]
    rw [show (((i + 1 : ℕ)) : ℤ) = (i : ℤ) + 1 by push_cast; ring]
    exact (sumRange_one_succ pdf i).symm

/-- C8: the CDF built by `main`'s CDF loop over the PDF of a coarse histogram
with nonnegative contents is monotonically non-decreasing, its running total
starts from 0 at the (underflow) predecessor of the first bin, and its last
bin equals the total content sum of the fine PDF. -/
theorem makeCDF_monotone_total (nfine : ℕ) (bins : List (ℚ × ℚ × ℚ))
    (h : ∀ bin ∈ bins, 0 ≤ bin.1) :
    (∀ i : ℕ, makeCDF nfine (makePDF nfine bins) i ≤
      makeCDF nfine (makePDF nfine bins) (i + 1)) ∧
    makeCDF nfine (makePDF nfine bins) 0 = 0 ∧
    makeCDF nfine (makePDF nfine bins) nfine =
      sumRange (makePDF nfine bins) 1 (nfine : ℤ) := by
  have hpdf := makePDF_nonneg nfine bins h
  refine ⟨fun i => ?_, rfl, makeCDF_eq_sumRange nfine _ nfine (le_refl nfine)⟩
  conv_rhs => rw [makeCDF]
  have hnn := sumRange_nonneg (makePDF nfine bins) hpdf
    (findBin nfine ((i : ℚ) + 1/2)) (findBin nfine (((i : ℚ) + 1) - 1/2))
  linarith

/-- C8 witness: a concrete two-bin coarse histogram; the CDF's last fine bin
carries the full PDF mass. -/
theorem makeCDF_monotone_total_witness :
    makeCDF 10 (makePDF 10 [(4/10, 1, 3), (6/10, 3, 4)]) 10 =
      sumRange (makePDF 10 [(4/10, 1, 3), (6/10, 3, 4)]) 1 10 :=
  (makeCDF_monotone_total 10 [(4/10, 1, 3), (6/10, 3, 4)]
    (by norm_num [List.forall_mem_cons])).2.2

end Dijet

namespace Dijet

theorem coarseBins_getElem (cs : List ℚ) (es : List ℚ) (k : ℕ)
    (hc : k < cs.length) (he : k + 1 < es.length) :
    (coarseBins cs es)[k]? = some (cs[k], es[k], es[k + 1]) := by
  have hk : k < (coarseBins cs es).length := by
    unfold coarseBins
    rw [List.length_zipWith, List.length_zip, List.length_tail]
    omega
  rw [List.getElem?_eq_getElem hk]
  congr 1
  unfold coarseBins
  rw [List.getElem_zipWith]
  congr 1
  rw [List.getElem_zip]
  congr 1
  rw [List.getElem_tail]

theorem foldl_pdfStep_untouched (nfine : ℕ) :
    ∀ (bins : List (ℚ × ℚ × ℚ)) (f : ℤ → ℚ) (b : ℤ),
      (∀ bin ∈ bins, ¬ (findBin nfine (bin.2.1 + 1/2) ≤ b ∧
        b ≤ findBin nfine (bin.2.2 - 1/2))) →
      bins.foldl (pdfStep nfine) f b = f b := by
  intro bins
  induction bins with
  | nil => intro f b _; rfl
  | cons bin bins ih =>
    intro f b h
    rw [List.foldl_cons,
      ih (pdfStep nfine f bin) b (fun p hp => h p (List.mem_cons_of_mem bin hp))]
    simp only [pdfStep, setRange]
    rw [if_neg (h bin (List.mem_cons_self bin bins))]

theorem foldl_pdfStep_write (nfine : ℕ) (pre post : List (ℚ × ℚ × ℚ))
    (bin : ℚ × ℚ × ℚ) (f : ℤ → ℚ) (b : ℤ)
    (hcov : findBin nfine (bin.2.1 + 1/2) ≤ b ∧
      b ≤ findBin nfine (bin.2.2 - 1/2))
    (hpost : ∀ p ∈ post, ¬ (findBin nfine (p.2.1 + 1/2) ≤ b ∧
      b ≤ findBin nfine (p.2.2 - 1/2))) :
    ((pre ++ bin :: post).foldl (pdfStep nfine) f) b =
      bin.1 / ((max 1 (findBin nfine (bin.2.2 - 1/2)
        - findBin nfine (bin.2.1 + 1/2) + 1) : ℤ) : ℚ) := by
  rw [List.foldl_append, List.foldl_cons,
    foldl_pdfStep_untouched nfine post _ b hpost]
  simp only [pdfStep, setRange]
  rw [if_pos hcov]

set_option maxHeartbeats 1000000 in
/-- C9: on a coarse histogram with strictly increasing integer edges inside
the fine axis, the PDF loop assigns to every fine bin `b` in the window
`[b_lo, b_hi]` of coarse bin `i` — where `b_lo`/`b_hi` are the fine bins
found at the coarse bin's lower edge plus half a unit and upper edge minus
half a unit — the value `content[i] / width` with
`width = max 1 (b_hi - b_lo + 1)`. -/
theorem makePDF_uniform_spread (nfine : ℕ) (contents : List ℚ) (edges : List ℤ)
    (hchain : edges.Chain' (· < ·))
    (h0 : ∀ e ∈ edges, 0 ≤ e) (hNle : ∀ e ∈ edges, e ≤ (nfine : ℤ))
    (i : ℕ) (hie : i + 1 < edges.length) (hic : i < contents.length)
    (b : ℤ)
    (hbl : findBin nfine ((edges[i] : ℚ) + 1/2) ≤ b)
    (hbh : b ≤ findBin nfine ((edges[i + 1] : ℚ) - 1/2)) :
    makePDF nfine (coarseBins contents (edges.map (fun (e : ℤ) => (e : ℚ)))) b =
      contents[i] / ((max 1 (findBin nfine ((edges[i + 1] : ℚ) - 1/2) -
        findBin nfine ((edges[i] : ℚ) + 1/2) + 1) : ℤ) : ℚ) := by
  have hpw : edges.Pairwise (· < ·) := List.chain'_iff_pairwise.mp hchain
  have hgl := List.pairwise_iff_getElem.mp hpw
  have hmono : ∀ p q (hp : p < edges.length) (hq : q < edges.length),
      p ≤ q → edges[p] ≤ edges[q] := by
    intro p q hp hq hpq
    rcases Nat.eq_or_lt_of_le hpq with rfl | hlt
    · exact le_refl _
    · exact le_of_lt (hgl p q hp hq hlt)
  have hlenb : (coarseBins contents (edges.map (fun (e : ℤ) => (e : ℚ)))).length
      = min contents.length (edges.length - 1) := by
    unfold coarseBins
    rw [List.length_zipWith, List.length_zip, List.length_tail, List.length_map]
    omega
  have hib : i < (coarseBins contents (edges.map (fun (e : ℤ) => (e : ℚ)))).length := by
    rw [hlenb]; omega
  have hbi : (coarseBins contents (edges.map (fun (e : ℤ) => (e : ℚ))))[i]
      = (contents[i], ((edges[i] : ℚ)), ((edges[i + 1] : ℚ))) := by
    have h := coarseBins_getElem contents (edges.map (fun (e : ℤ) => (e : ℚ))) i hic
      (by rw [List.length_map]; omega)
    rw [List.getElem?_eq_getElem hib] at h
    simp only [Option.some_inj, List.getElem_map] at h
    exact h
  have hedadj : edges[i] < edges[i + 1] := hgl i (i + 1) (by omega) hie (by omega)
  have hub : b ≤ edges[i + 1] := by
    have h1 : 1 ≤ edges[i + 1] := by
      have := h0 (edges[i]) (List.getElem_mem (by omega))
      omega
    have h2 : edges[i + 1] ≤ (nfine : ℤ) := hNle _ (List.getElem_mem hie)
    rwa [findBin_int_minus_half nfine (edges[i + 1]) h1 h2] at hbh
  have hcov : findBin nfine
        (((coarseBins contents (edges.map (fun (e : ℤ) => (e : ℚ))))[i]).2.1 + 1/2) ≤ b ∧
      b ≤ findBin nfine
        (((coarseBins contents (edges.map (fun (e : ℤ) => (e : ℚ))))[i]).2.2 - 1/2) := by
    rw [hbi]
    exact ⟨hbl, hbh⟩
  have hpost : ∀ p ∈ (coarseBins contents (edges.map (fun (e : ℤ) => (e : ℚ)))).drop (i + 1),
      ¬ (findBin nfine (p.2.1 + 1/2) ≤ b ∧ b ≤ findBin nfine (p.2.2 - 1/2)) := by
    intro p hp
    obtain ⟨j, hj, hpj⟩ := List.getElem_of_mem hp
    rw [List.getElem_drop] at hpj
    have hjb : i + 1 + j < (coarseBins contents (edges.map (fun (e : ℤ) => (e : ℚ)))).length := by
      rw [List.length_drop] at hj
      omega
    have hcE : i + 1 + j < contents.length := by rw [hlenb] at hjb; omega
    have heE : i + 1 + j + 1 < edges.length := by rw [hlenb] at hjb; omega
    have hq := coarseBins_getElem contents (edges.map (fun (e : ℤ) => (e : ℚ))) (i + 1 + j)
      hcE (by rw [List.length_map]; omega)
    rw [List.getElem?_eq_getElem hjb] at hq
    simp only [Option.some_inj, List.getElem_map] at hq
    rw [hq] at hpj
    rw [← hpj]
    dsimp only
    rintro ⟨hcontra, -⟩
    have h0' : 0 ≤ edges[i + 1 + j] := h0 _ (List.getElem_mem (by omega))
    have hlt' : edges[i + 1 + j] < (nfine : ℤ) := by
      have h1 := hgl (i + 1 + j) (i + 1 + j + 1) (by omega) heE (by omega)
      have h2 := hNle (edges[i + 1 + j + 1]) (List.getElem_mem heE)
      omega
    rw [findBin_int_plus_half nfine (edges[i + 1 + j]) h0' hlt'] at hcontra
    have hmo := hmono (i + 1) (i + 1 + j) (by omega) (by omega) (by omega)
    omega
  rw [makePDF]
  conv_lhs => rw [← List.take_append_drop i
    (coarseBins contents (edges.map (fun (e : ℤ) => (e : ℚ))))]
  conv_lhs => rw [← List.getElem_cons_drop
    (coarseBins contents (edges.map (fun (e : ℤ) => (e : ℚ)))) i hib]
  rw [foldl_pdfStep_write nfine _ _ _ _ b hcov hpost, hbi]

/-- C9 witness: coarse bins with edges 1, 3, 4 and contents 0.4, 0.6 on a
10-bin fine axis; fine bin 2 (inside the first coarse bin's window [2, 3])
receives 0.4 divided by the window width. -/
theorem makePDF_uniform_spread_witness :
    makePDF 10 (coarseBins [4/10, 6/10] ([1, 3, 4].map (fun e => ((e : ℤ) : ℚ)))) 2 =
      (4/10 : ℚ) / ((max 1 (findBin 10 (((3 : ℤ) : ℚ) - 1/2) -
        findBin 10 (((1 : ℤ) : ℚ) + 1/2) + 1) : ℤ) : ℚ) :=
  makePDF_uniform_spread 10 [4/10, 6/10] [1, 3, 4]
    (by norm_num [List.chain'_cons, List.chain'_singleton])
    (by decide) (by decide) 0 (by decide) (by decide) 2
    (by
      show findBin 10 (((1 : ℤ) : ℚ) + 1/2) ≤ 2
      rw [findBin_int_plus_half 10 1 (by decide) (by decide)]
      decide)
    (by
      show (2 : ℤ) ≤ findBin 10 (((3 : ℤ) : ℚ) - 1/2)
      rw [findBin_int_minus_half 10 3 (by decide) (by decide)]
      decide)

end Dijet
